import Mathlib

/-!
Verification of the harmony queued transaction pool.

The pool logic is embedded from `app/data/queued.go`.  The sorted
transaction list (`Insert`, `Remove`), the record predicates
(`IsDuplicateOf`, `IsSentFrom`, `IsSentTo`, `IsQueuedForGTE`,
`IsQueuedForLTE`, `IsUnstuck`) and `IsPresentInCurrentPool` live in
files of the repository that are not available here; those are
modelled from the specification, as marked in their doc comments.

Hashes, addresses and wall-clock instants are modelled as naturals;
gas price is an arbitrary-precision natural, matching the source's
big integer.  The actor's per-request handlers become pure functions
from a pool state to a new pool state, a reply and the list of
published pub/sub events.
-/

set_option autoImplicit false

/-- One mempool transaction record (`MemPoolTx` in `app/data`). -/
structure MemPoolTx where
  Hash : Nat
  From : Nat
  To : Nat
  Nonce : Nat
  GasPrice : Nat
  QueuedAt : Nat
  PendingAt : Nat
  UnstuckAt : Nat
  Pool : String
deriving DecidableEq

/-- Modelled from the spec: `Insert(list, tx)` for the ascending-by-`GasPrice`
list (§4.1): place `tx` so that the non-decreasing order is preserved, ties
appended after equal-priced entries. -/
def insertAsc : List MemPoolTx → MemPoolTx → List MemPoolTx
  | [], tx => [tx]
  | y :: ys, tx =>
    if tx.GasPrice < y.GasPrice then tx :: y :: ys else y :: insertAsc ys tx

/-- Modelled from the spec: `Insert(list, tx)` for the descending-by-`GasPrice`
list (§4.1): place `tx` so that the non-increasing order is preserved, ties
inserted before equal-priced entries. -/
def insertDesc : List MemPoolTx → MemPoolTx → List MemPoolTx
  | [], tx => [tx]
  | y :: ys, tx =>
    if tx.GasPrice < y.GasPrice then y :: insertDesc ys tx else tx :: y :: ys

/-- Modelled from the spec: `Remove(list, tx)` (§4.1): locate by `Hash`
equality and excise the (by invariant I2 unique) occurrence. -/
def removeByHash : List MemPoolTx → Nat → List MemPoolTx
  | [], _ => []
  | y :: ys, h => if y.Hash = h then ys else y :: removeByHash ys h

/-- Lookup in the hash-keyed map `Transactions`, modelled as an
association list (Go map indexing `q.Transactions[h]`). -/
def lookupTx : List (Nat × MemPoolTx) → Nat → Option MemPoolTx
  | [], _ => none
  | p :: ps, h => if p.1 = h then some p.2 else lookupTx ps h

/-- Go `delete(q.Transactions, h)` on the association-list model. -/
def eraseKey : List (Nat × MemPoolTx) → Nat → List (Nat × MemPoolTx)
  | [], _ => []
  | p :: ps, h => if p.1 = h then ps else p :: eraseKey ps h

/-- A pub/sub event published by the pool: `PublishAdded` publishes the
inserted record to the entry topic; `PublishRemoved` publishes its
(possibly absent) argument to the exit topic. -/
inductive QEvent where
  | added (tx : MemPoolTx)
  | removed (payload : Option MemPoolTx)
deriving DecidableEq

/-- The queued pool state (`QueuedPool` in `app/data/queued.go`):
hash-keyed map plus the two sorted views and the prune latch. -/
structure QueuedPool where
  Transactions : List (Nat × MemPoolTx)
  AscTxsByGasPrice : List MemPoolTx
  DescTxsByGasPrice : List MemPoolTx
  IsPruning : Bool
deriving DecidableEq

/-- The `AddTxChan` handler in `QueuedPool.Start`: duplicate hash replies
`false` with no event; otherwise the record is stamped
(`QueuedAt = now`, `Pool = "queued"`), inserted into the map and both
sorted lists, one entry event is published and the reply is `true`.
Returns (new state, reply, published events). -/
def addTx (q : QueuedPool) (now : Nat) (tx : MemPoolTx) :
    QueuedPool × Bool × List QEvent :=
  match lookupTx q.Transactions tx.Hash with
  | some _ => (q, false, [])
  | none =>
    let tx' := { tx with QueuedAt := now, Pool := "queued" }
    ({ q with
        Transactions := (tx.Hash, tx') :: q.Transactions
        AscTxsByGasPrice := insertAsc q.AscTxsByGasPrice tx'
        DescTxsByGasPrice := insertDesc q.DescTxsByGasPrice tx' },
     true, [QEvent.added tx'])

/-- The `txRemover` closure in `QueuedPool.Start`: absent hash replies
null with no event; otherwise `UnstuckAt` is set on the record, the
record is excised from both sorted lists and deleted from the map, and
`PublishRemoved` is called with the map lookup of the hash performed
AFTER the deletion (`q.Transactions[txHash]`), exactly as the source
does.  Returns (new state, removed record, published events). -/
def txRemover (q : QueuedPool) (now : Nat) (txHash : Nat) :
    QueuedPool × Option MemPoolTx × List QEvent :=
  match lookupTx q.Transactions txHash with
  | none => (q, none, [])
  | some tx =>
    let q' := { q with
        AscTxsByGasPrice := removeByHash q.AscTxsByGasPrice txHash
        DescTxsByGasPrice := removeByHash q.DescTxsByGasPrice txHash
        Transactions := eraseKey q.Transactions txHash }
    (q', some { tx with UnstuckAt := now },
     [QEvent.removed (lookupTx q'.Transactions txHash)])

/-- Reply codes of the `RemoveTxsChan` (prune) handler. -/
inductive PruneStatus where
  | SCHEDULED
  | PRUNING
  | EMPTY
deriving DecidableEq

/-- The synchronous guard of the `RemoveTxsChan` handler: busy latch
replies `PRUNING`, empty descending list replies `EMPTY`, otherwise the
latch is set and the reply is `SCHEDULED` (the body then runs
asynchronously, see `pruneBody`). -/
def removeUnstuckGuard (q : QueuedPool) : QueuedPool × PruneStatus :=
  if q.IsPruning then (q, PruneStatus.PRUNING)
  else if q.DescTxsByGasPrice.length = 0 then (q, PruneStatus.EMPTY)
  else ({ q with IsPruning := true }, PruneStatus.SCHEDULED)

/-- Classification verdict of one transaction during a prune. -/
inductive TxStatus where
  | STUCK
  | UNSTUCK
deriving DecidableEq

/-- The per-transaction classification job submitted to the worker pool
inside the prune body.  The upstream queued/pending snapshots are
modelled (from the spec's `IsPresentInCurrentPool`) as hash-presence
predicates, and the `IsUnstuck` RPC probe (modelled from the spec) as a
function returning `none` on RPC error and `some b` for a probe result
`b`: presence in upstream queued is STUCK; else presence in upstream
pending is UNSTUCK; else an RPC error is STUCK and otherwise the verdict
is UNSTUCK iff the probe returned true. -/
def classifyTx (queued pending : Nat → Bool) (probe : Nat → Option Bool)
    (tx : MemPoolTx) : TxStatus :=
  if queued tx.Hash then TxStatus.STUCK
  else if pending tx.Hash then TxStatus.UNSTUCK
  else
    match probe tx.Hash with
    | none => TxStatus.STUCK
    | some yes => if yes then TxStatus.UNSTUCK else TxStatus.STUCK

/-- One step of the prune body's collection loop: a STUCK verdict leaves
the accumulator alone; an UNSTUCK verdict removes the transaction
through `txRemover` and, when the removal returned a non-null record,
hands that record to `PendingPool.Add` (accumulated in the third
component). -/
def pruneStep (now : Nat) (queued pending : Nat → Bool) (probe : Nat → Option Bool)
    (acc : QueuedPool × List QEvent × List MemPoolTx) (tx : MemPoolTx) :
    QueuedPool × List QEvent × List MemPoolTx :=
  match classifyTx queued pending probe tx with
  | TxStatus.STUCK => acc
  | TxStatus.UNSTUCK =>
    let r := txRemover acc.1 now tx.Hash
    match r.2.1 with
    | none => (r.1, acc.2.1 ++ r.2.2, acc.2.2)
    | some rtx => (r.1, acc.2.1 ++ r.2.2, acc.2.2 ++ [rtx])

/-- The asynchronous prune body: snapshot the descending list, classify
every snapshotted transaction, remove the UNSTUCK ones and hand the
removed records to the pending pool.  Returns (new state, published
events, records handed to `PendingPool.Add`). -/
def pruneBody (q : QueuedPool) (now : Nat) (queued pending : Nat → Bool)
    (probe : Nat → Option Bool) : QueuedPool × List QEvent × List MemPoolTx :=
  q.DescTxsByGasPrice.foldl (pruneStep now queued pending probe) (q, [], [])

/-- The `TxExistsChan` handler: map membership. -/
def existsTx (q : QueuedPool) (h : Nat) : Bool :=
  (lookupTx q.Transactions h).isSome

/-- The `GetTxChan` handler: map lookup, null when absent. -/
def getTx (q : QueuedPool) (h : Nat) : Option MemPoolTx :=
  lookupTx q.Transactions h

/-- The `CountTxsChan` handler: length of the ascending list. -/
def countTxs (q : QueuedPool) : Nat :=
  q.AscTxsByGasPrice.length

/-- The `make`/`copy` pair in the `ListTxsChan` handler: a freshly built
copy of the list's contents. -/
def listCopy (l : List MemPoolTx) : List MemPoolTx :=
  l.foldr List.cons []

/-- The `ListTxsChan` handler for `ASC`: null when the ascending list is
empty, otherwise a copy of its contents. -/
def AscListTxs (q : QueuedPool) : Option (List MemPoolTx) :=
  if q.AscTxsByGasPrice.length = 0 then none
  else some (listCopy q.AscTxsByGasPrice)

/-- The `ListTxsChan` handler for `DESC`: null when the descending list
is empty, otherwise a copy of its contents. -/
def DescListTxs (q : QueuedPool) : Option (List MemPoolTx) :=
  if q.DescTxsByGasPrice.length = 0 then none
  else some (listCopy q.DescTxsByGasPrice)

/-- Go slice expression `l[:x]` on a slice of length `l.length` (a nil
slice has length 0): the first `x` elements when `x` is in bounds, and a
runtime panic — modelled as `none` — otherwise. -/
def goSlice (l : List MemPoolTx) (x : Nat) : Option (List MemPoolTx) :=
  if x ≤ l.length then some (l.take x) else none

/-- `QueuedPool.TopXWithHighGasPrice`: `q.DescListTxs()[:x]`. -/
def TopXWithHighGasPrice (q : QueuedPool) (x : Nat) : Option (List MemPoolTx) :=
  goSlice ((DescListTxs q).getD []) x

/-- `QueuedPool.TopXWithLowGasPrice`: `q.AscListTxs()[:x]`. -/
def TopXWithLowGasPrice (q : QueuedPool) (x : Nat) : Option (List MemPoolTx) :=
  goSlice ((AscListTxs q).getD []) x

/-- Modelled from the spec: *duplicate-of(other)* — same `From` and same
`Nonce`, excluding the target itself (§3, §4.2). -/
def IsDuplicateOf (tx other : MemPoolTx) : Bool :=
  tx.From == other.From && tx.Nonce == other.Nonce && tx.Hash != other.Hash

/-- `QueuedPool.DuplicateTxs`: fetch the target, list all (descending),
keep the records that are duplicates of the target; null when the target
is absent or the pool is empty. -/
def DuplicateTxs (q : QueuedPool) (h : Nat) : Option (List MemPoolTx) :=
  match getTx q h with
  | none => none
  | some targetTx =>
    match DescListTxs q with
    | none => none
    | some txs => some (txs.filter (fun tx => IsDuplicateOf tx targetTx))

/-- Modelled from the spec: *sent-from(addr)* — sender address equality. -/
def IsSentFrom (tx : MemPoolTx) (address : Nat) : Bool :=
  tx.From == address

/-- Modelled from the spec: *sent-to(addr)* — recipient address equality. -/
def IsSentTo (tx : MemPoolTx) (address : Nat) : Bool :=
  tx.To == address

/-- Modelled from the spec: *queued-for-≥(d)* — `now - QueuedAt ≥ d`. -/
def IsQueuedForGTE (tx : MemPoolTx) (now d : Nat) : Bool :=
  d ≤ now - tx.QueuedAt

/-- Modelled from the spec: *queued-for-≤(d)* — `now - QueuedAt ≤ d`. -/
def IsQueuedForLTE (tx : MemPoolTx) (now d : Nat) : Bool :=
  now - tx.QueuedAt ≤ d

/-- `QueuedPool.SentFrom`: list all (descending), null when empty,
otherwise keep the records sent from the address. -/
def SentFrom (q : QueuedPool) (address : Nat) : Option (List MemPoolTx) :=
  match DescListTxs q with
  | none => none
  | some txs => some (txs.filter (fun tx => IsSentFrom tx address))

/-- `QueuedPool.SentTo`: list all (descending), null when empty,
otherwise keep the records sent to the address. -/
def SentTo (q : QueuedPool) (address : Nat) : Option (List MemPoolTx) :=
  match DescListTxs q with
  | none => none
  | some txs => some (txs.filter (fun tx => IsSentTo tx address))

/-- `QueuedPool.OlderThanX`: list all (descending), null when empty,
otherwise keep the records queued for at least `d`. -/
def OlderThanX (q : QueuedPool) (now d : Nat) : Option (List MemPoolTx) :=
  match DescListTxs q with
  | none => none
  | some txs => some (txs.filter (fun tx => IsQueuedForGTE tx now d))

/-- `QueuedPool.FresherThanX`: list all (descending), null when empty,
otherwise keep the records queued for at most `d`. -/
def FresherThanX (q : QueuedPool) (now d : Nat) : Option (List MemPoolTx) :=
  match DescListTxs q with
  | none => none
  | some txs => some (txs.filter (fun tx => IsQueuedForLTE tx now d))

/-- Non-decreasing by `GasPrice`. -/
@[reducible]
def sortedByGasPrice (l : List MemPoolTx) : Prop :=
  l.Pairwise (fun a b => a.GasPrice ≤ b.GasPrice)

/-- The pool invariant (spec I1–I4): every map entry is keyed by its
record's hash, keys are unique, the ascending list holds exactly the
map's records, it is sorted non-decreasing by gas price, and the
descending list is its exact reverse. -/
@[reducible]
def poolInv (q : QueuedPool) : Prop :=
  (∀ p ∈ q.Transactions, (Prod.snd p).Hash = p.1) ∧
  (q.Transactions.map Prod.fst).Nodup ∧
  (q.Transactions.map Prod.snd).Perm q.AscTxsByGasPrice ∧
  sortedByGasPrice q.AscTxsByGasPrice ∧
  q.DescTxsByGasPrice = q.AscTxsByGasPrice.reverse

/-- Inserting into the ascending list is a permutation of consing. -/
theorem insertAsc_perm (l : List MemPoolTx) (tx : MemPoolTx) :
    (insertAsc l tx).Perm (tx :: l) := by
  induction l with
  | nil => simp [insertAsc]
  | cons y ys ih =>
    simp only [insertAsc]
    by_cases h : tx.GasPrice < y.GasPrice
    · rw [if_pos h]
    · rw [if_neg h]
      exact (ih.cons y).trans (List.Perm.swap tx y ys)

/-- Membership in the ascending insertion. -/
theorem mem_insertAsc {l : List MemPoolTx} {tx z : MemPoolTx} :
    z ∈ insertAsc l tx ↔ z = tx ∨ z ∈ l := by
  rw [(insertAsc_perm l tx).mem_iff, List.mem_cons]

/-- Ascending insertion preserves sortedness. -/
theorem insertAsc_sorted {l : List MemPoolTx} (tx : MemPoolTx)
    (hs : sortedByGasPrice l) : sortedByGasPrice (insertAsc l tx) := by
  induction l with
  | nil => simp [insertAsc, sortedByGasPrice]
  | cons y ys ih =>
    rw [sortedByGasPrice, List.pairwise_cons] at hs
    obtain ⟨hy, hys⟩ := hs
    simp only [insertAsc]
    by_cases h : tx.GasPrice < y.GasPrice
    · rw [if_pos h, sortedByGasPrice, List.pairwise_cons]
      refine ⟨?_, List.pairwise_cons.mpr ⟨hy, hys⟩⟩
      intro z hz
      rcases List.mem_cons.mp hz with rfl | hz'
      · exact le_of_lt h
      · exact le_trans (le_of_lt h) (hy z hz')
    · rw [if_neg h, sortedByGasPrice, List.pairwise_cons]
      refine ⟨?_, ih hys⟩
      intro z hz
      rcases mem_insertAsc.mp hz with rfl | hz'
      · exact not_lt.mp h
      · exact hy z hz'

/-- Descending insertion lands at the end when every element pays a
strictly higher gas price. -/
theorem insertDesc_all_lt {m : List MemPoolTx} {tx : MemPoolTx}
    (h : ∀ z ∈ m, tx.GasPrice < z.GasPrice) : insertDesc m tx = m ++ [tx] := by
  induction m with
  | nil => simp [insertDesc]
  | cons z m' ih =>
    simp only [insertDesc]
    rw [if_pos (h z (List.mem_cons_self z m')), ih
      (fun w hw => h w (List.mem_cons_of_mem z hw))]
    simp

/-- Descending insertion ignores a final element paying at most the new
gas price. -/
theorem insertDesc_append_last {m : List MemPoolTx} {y tx : MemPoolTx}
    (h : ¬ tx.GasPrice < y.GasPrice) :
    insertDesc (m ++ [y]) tx = insertDesc m tx ++ [y] := by
  induction m with
  | nil => simp [insertDesc, if_neg h]
  | cons z m' ih =>
    simp only [List.cons_append, insertDesc, List.append_eq]
    by_cases hz : tx.GasPrice < z.GasPrice
    · rw [if_pos hz, if_pos hz, ih]
      simp
    · rw [if_neg hz, if_neg hz]
      simp

/-- On a sorted list, reversing the ascending insertion is the
descending insertion on the reversed list. -/
theorem reverse_insertAsc {l : List MemPoolTx} (tx : MemPoolTx)
    (hs : sortedByGasPrice l) :
    (insertAsc l tx).reverse = insertDesc l.reverse tx := by
  induction l with
  | nil => simp [insertAsc, insertDesc]
  | cons y ys ih =>
    rw [sortedByGasPrice, List.pairwise_cons] at hs
    obtain ⟨hy, hys⟩ := hs
    simp only [insertAsc]
    by_cases h : tx.GasPrice < y.GasPrice
    · rw [if_pos h]
      have hall : ∀ z ∈ (y :: ys).reverse, tx.GasPrice < z.GasPrice := by
        intro z hz
        rcases List.mem_cons.mp (List.mem_reverse.mp hz) with rfl | hz2
        · exact h
        · exact lt_of_lt_of_le h (hy z hz2)
      rw [insertDesc_all_lt hall]
      simp
    · rw [if_neg h, List.reverse_cons, List.reverse_cons,
        insertDesc_append_last h, ih hys]

/-- With unique hashes, hash removal is a filter. -/
theorem removeByHash_eq_filter {l : List MemPoolTx} {h : Nat}
    (hnd : (l.map MemPoolTx.Hash).Nodup) :
    removeByHash l h = l.filter (fun t => t.Hash != h) := by
  induction l with
  | nil => rfl
  | cons y ys ih =>
    simp only [List.map_cons, List.nodup_cons] at hnd
    obtain ⟨hy, hys⟩ := hnd
    simp only [removeByHash]
    by_cases hh : y.Hash = h
    · rw [if_pos hh, List.filter_cons_of_neg (by simp [hh])]
      refine (List.filter_eq_self.mpr ?_).symm
      intro t ht
      simp only [bne_iff_ne, ne_eq]
      intro e
      apply hy
      rw [hh, ← e]
      exact List.mem_map_of_mem MemPoolTx.Hash ht
    · rw [if_neg hh, List.filter_cons_of_pos (by simp [hh]), ih hys]

/-- Elements surviving a hash removal on a unique-hash list do not
carry the removed hash. -/
theorem mem_removeByHash_ne {l : List MemPoolTx} {h : Nat}
    (hnd : (l.map MemPoolTx.Hash).Nodup) :
    ∀ t ∈ removeByHash l h, t.Hash ≠ h := by
  intro t ht
  rw [removeByHash_eq_filter hnd] at ht
  simpa using (List.mem_filter.mp ht).2

/-- Absent lookup characterization. -/
theorem lookupTx_eq_none {m : List (Nat × MemPoolTx)} {h : Nat} :
    lookupTx m h = none ↔ h ∉ m.map Prod.fst := by
  induction m with
  | nil => simp [lookupTx]
  | cons p ps ih =>
    simp only [lookupTx, List.map_cons, List.mem_cons]
    by_cases hp : p.1 = h
    · simp [hp]
    · simp only [if_neg hp, ih]
      constructor
      · intro hnot hor
        rcases hor with e | e
        · exact hp e.symm
        · exact hnot e
      · intro hnot e
        exact hnot (Or.inr e)

/-- Successful lookup yields a member pair. -/
theorem lookupTx_mem {m : List (Nat × MemPoolTx)} {h : Nat} {tx : MemPoolTx} :
    lookupTx m h = some tx → (h, tx) ∈ m := by
  induction m with
  | nil => intro e; simp [lookupTx] at e
  | cons p ps ih =>
    simp only [lookupTx]
    by_cases hp : p.1 = h
    · rw [if_pos hp]
      intro e
      have e2 : p.2 = tx := Option.some_inj.mp e
      have e3 : (h, tx) = p := by
        rw [← hp, ← e2]
      rw [e3]
      exact List.mem_cons_self p ps
    · rw [if_neg hp]
      intro e
      exact List.mem_cons_of_mem p (ih e)

/-- With unique keys, every member pair is found by lookup. -/
theorem mem_lookupTx {m : List (Nat × MemPoolTx)} {h : Nat} {tx : MemPoolTx}
    (hnd : (m.map Prod.fst).Nodup) (hm : (h, tx) ∈ m) :
    lookupTx m h = some tx := by
  induction m with
  | nil => simp at hm
  | cons p ps ih =>
    simp only [List.map_cons, List.nodup_cons] at hnd
    obtain ⟨hp, hps⟩ := hnd
    rcases List.mem_cons.mp hm with e | e
    · rw [← e]
      simp [lookupTx]
    · simp only [lookupTx]
      by_cases he : p.1 = h
      · exfalso
        exact hp (by rw [he]; exact List.mem_map_of_mem Prod.fst e)
      · rw [if_neg he]
        exact ih hps e

/-- Deleting a key is a sublist operation. -/
theorem eraseKey_sublist (m : List (Nat × MemPoolTx)) (h : Nat) :
    (eraseKey m h).Sublist m := by
  induction m with
  | nil => simp [eraseKey]
  | cons p ps ih =>
    simp only [eraseKey]
    by_cases hp : p.1 = h
    · rw [if_pos hp]
      exact List.sublist_cons_self p ps
    · rw [if_neg hp]
      exact ih.cons₂ p

/-- With unique keys, the deleted key is gone. -/
theorem lookupTx_eraseKey_self {m : List (Nat × MemPoolTx)} {h : Nat}
    (hnd : (m.map Prod.fst).Nodup) :
    lookupTx (eraseKey m h) h = none := by
  induction m with
  | nil => simp [eraseKey, lookupTx]
  | cons p ps ih =>
    simp only [List.map_cons, List.nodup_cons] at hnd
    obtain ⟨hp, hps⟩ := hnd
    simp only [eraseKey]
    by_cases he : p.1 = h
    · rw [if_pos he, lookupTx_eq_none, ← he]
      exact hp
    · rw [if_neg he]
      simp only [lookupTx, if_neg he]
      exact ih hps

/-- Deleting one key leaves every other key's lookup unchanged. -/
theorem lookupTx_eraseKey_ne {m : List (Nat × MemPoolTx)} {h k : Nat}
    (hk : k ≠ h) : lookupTx (eraseKey m h) k = lookupTx m k := by
  induction m with
  | nil => rfl
  | cons p ps ih =>
    simp only [eraseKey]
    by_cases he : p.1 = h
    · rw [if_pos he]
      have hne : ¬ p.1 = k := by
        rw [he]
        exact fun e => hk e.symm
      simp only [lookupTx, if_neg hne]
    · rw [if_neg he]
      simp only [lookupTx, ih]

/-- With hash-coherent entries, deleting a key removes exactly the
record with that hash from the value list. -/
theorem map_snd_eraseKey {m : List (Nat × MemPoolTx)} {h : Nat}
    (coh : ∀ p ∈ m, (Prod.snd p).Hash = p.1) :
    (eraseKey m h).map Prod.snd = removeByHash (m.map Prod.snd) h := by
  induction m with
  | nil => rfl
  | cons p ps ih =>
    have hcoh : p.2.Hash = p.1 := coh p (List.mem_cons_self p ps)
    have hps : ∀ r ∈ ps, (Prod.snd r).Hash = r.1 :=
      fun r hr => coh r (List.mem_cons_of_mem p hr)
    simp only [eraseKey, List.map_cons, removeByHash, hcoh]
    by_cases he : p.1 = h
    · rw [if_pos he, if_pos he]
    · rw [if_neg he, if_neg he, List.map_cons, ih hps]

/-- Hash coherence rewrites the value hashes to the keys. -/
theorem map_hash_values {m : List (Nat × MemPoolTx)}
    (coh : ∀ p ∈ m, (Prod.snd p).Hash = p.1) :
    (m.map Prod.snd).map MemPoolTx.Hash = m.map Prod.fst := by
  rw [List.map_map]
  exact List.map_congr_left coh

/-- `Add` preserves the pool invariant. -/
theorem addTx_poolInv (q : QueuedPool) (now : Nat) (tx : MemPoolTx)
    (hq : poolInv q) : poolInv (addTx q now tx).1 := by
  obtain ⟨coh, knd, perm, srt, dsc⟩ := hq
  cases hl : lookupTx q.Transactions tx.Hash with
  | some tx0 =>
    simp only [addTx, hl]
    exact ⟨coh, knd, perm, srt, dsc⟩
  | none =>
    simp only [addTx, hl, poolInv]
    refine ⟨?_, ?_, ?_, ?_, ?_⟩
    · intro p hp
      rcases List.mem_cons.mp hp with rfl | hp'
      · rfl
      · exact coh p hp'
    · simp only [List.map_cons, List.nodup_cons]
      exact ⟨lookupTx_eq_none.mp hl, knd⟩
    · simp only [List.map_cons]
      exact (perm.cons _).trans (insertAsc_perm q.AscTxsByGasPrice _).symm
    · exact insertAsc_sorted _ srt
    · rw [dsc, ← reverse_insertAsc _ srt]

/-- The unfolded equation of `txRemover` on a present hash. -/
theorem txRemover_eq_of_some {q : QueuedPool} {h : Nat} {tx : MemPoolTx} (now : Nat)
    (hl : lookupTx q.Transactions h = some tx) :
    txRemover q now h =
      ({ q with
          AscTxsByGasPrice := removeByHash q.AscTxsByGasPrice h
          DescTxsByGasPrice := removeByHash q.DescTxsByGasPrice h
          Transactions := eraseKey q.Transactions h },
       some { tx with UnstuckAt := now },
       [QEvent.removed (lookupTx (eraseKey q.Transactions h) h)]) := by
  simp only [txRemover, hl]

/-- Single-hash removal preserves the pool invariant. -/
theorem txRemover_poolInv (q : QueuedPool) (now h : Nat)
    (hq : poolInv q) : poolInv (txRemover q now h).1 := by
  obtain ⟨coh, knd, perm, srt, dsc⟩ := hq
  cases hl : lookupTx q.Transactions h with
  | none =>
    simp only [txRemover, hl]
    exact ⟨coh, knd, perm, srt, dsc⟩
  | some tx =>
    simp only [txRemover, hl, poolInv]
    have hvals : ((q.Transactions.map Prod.snd).map MemPoolTx.Hash).Nodup := by
      rw [map_hash_values coh]
      exact knd
    have hascnd : (q.AscTxsByGasPrice.map MemPoolTx.Hash).Nodup :=
      (perm.map MemPoolTx.Hash).nodup hvals
    refine ⟨?_, ?_, ?_, ?_, ?_⟩
    · intro p hp
      exact coh p ((eraseKey_sublist _ _).subset hp)
    · exact (((eraseKey_sublist _ _).map Prod.fst)).nodup knd
    · rw [map_snd_eraseKey coh, removeByHash_eq_filter hvals,
        removeByHash_eq_filter hascnd]
      exact perm.filter _
    · rw [removeByHash_eq_filter hascnd]
      exact List.Pairwise.filter _ srt
    · rw [dsc, removeByHash_eq_filter
          (by rw [List.map_reverse]; exact List.nodup_reverse.mpr hascnd),
        List.filter_reverse, removeByHash_eq_filter hascnd]

/-- The prune guard preserves the pool invariant (it only touches the
latch). -/
theorem removeUnstuckGuard_poolInv (q : QueuedPool)
    (hq : poolInv q) : poolInv (removeUnstuckGuard q).1 := by
  by_cases h1 : q.IsPruning
  · simp only [removeUnstuckGuard, if_pos h1]
    exact hq
  · by_cases h2 : q.DescTxsByGasPrice.length = 0
    · simp only [removeUnstuckGuard, if_neg h1, if_pos h2]
      exact hq
    · simp only [removeUnstuckGuard, if_neg h1, if_neg h2]
      exact hq

/-- Folding the prune step preserves the pool invariant. -/
theorem pruneFold_poolInv (now : Nat) (qd pd : Nat → Bool) (probe : Nat → Option Bool) :
    ∀ (txs : List MemPoolTx) (s : QueuedPool) (evs : List QEvent) (adds : List MemPoolTx),
    poolInv s → poolInv ((txs.foldl (pruneStep now qd pd probe) (s, evs, adds))).1 := by
  intro txs
  induction txs with
  | nil =>
    intro s evs adds hs
    exact hs
  | cons tx rest ih =>
    intro s evs adds hs
    rw [List.foldl_cons]
    cases hc : classifyTx qd pd probe tx with
    | STUCK =>
      simp only [pruneStep, hc]
      exact ih s evs adds hs
    | UNSTUCK =>
      simp only [pruneStep, hc]
      cases hr : (txRemover s now tx.Hash).2.1 with
      | none =>
        simp only [hr]
        exact ih _ _ _ (txRemover_poolInv s now tx.Hash hs)
      | some rtx =>
        simp only [hr]
        exact ih _ _ _ (txRemover_poolInv s now tx.Hash hs)

/-- The prune body preserves the pool invariant. -/
theorem pruneBody_poolInv (q : QueuedPool) (now : Nat) (qd pd : Nat → Bool)
    (probe : Nat → Option Bool) (hq : poolInv q) :
    poolInv (pruneBody q now qd pd probe).1 :=
  pruneFold_poolInv now qd pd probe q.DescTxsByGasPrice q [] [] hq

/-- The `copy` in the list handlers returns exactly the contents. -/
theorem listCopy_eq (l : List MemPoolTx) : listCopy l = l := by
  induction l with
  | nil => rfl
  | cons y ys ih =>
    show y :: listCopy ys = y :: ys
    rw [ih]

/-- Full specification of folding the prune collection step over a
snapshot whose records are present with distinct hashes: the records
handed to the pending pool are exactly the UNSTUCK-classified snapshot
records with `UnstuckAt` stamped, every UNSTUCK snapshot record is gone
from the map and every STUCK one is still there, and hashes outside the
snapshot are untouched. -/
theorem pruneFold_spec (now : Nat) (qd pd : Nat → Bool) (probe : Nat → Option Bool) :
    ∀ (txs : List MemPoolTx) (s : QueuedPool) (evs : List QEvent) (adds : List MemPoolTx),
    poolInv s →
    (∀ t ∈ txs, lookupTx s.Transactions t.Hash = some t) →
    ((txs.map MemPoolTx.Hash).Nodup) →
    ((txs.foldl (pruneStep now qd pd probe) (s, evs, adds)).2.2 =
      adds ++ (txs.filter
        (fun t => classifyTx qd pd probe t == TxStatus.UNSTUCK)).map
        (fun t => { t with UnstuckAt := now })) ∧
    (∀ t ∈ txs,
      lookupTx (txs.foldl (pruneStep now qd pd probe) (s, evs, adds)).1.Transactions t.Hash =
        if classifyTx qd pd probe t == TxStatus.UNSTUCK then none else some t) ∧
    (∀ k, (∀ t ∈ txs, t.Hash ≠ k) →
      lookupTx (txs.foldl (pruneStep now qd pd probe) (s, evs, adds)).1.Transactions k =
        lookupTx s.Transactions k) := by
  intro txs
  induction txs with
  | nil =>
    intro s evs adds _ _ _
    exact ⟨by simp, by simp, fun k _ => rfl⟩
  | cons tx rest ih =>
    intro s evs adds hs hpres hnd
    have hstx : lookupTx s.Transactions tx.Hash = some tx :=
      hpres tx (List.mem_cons_self tx rest)
    simp only [List.map_cons, List.nodup_cons] at hnd
    obtain ⟨hhead, hndr⟩ := hnd
    have hrestne : ∀ t ∈ rest, t.Hash ≠ tx.Hash := by
      intro t ht e
      exact hhead (e ▸ List.mem_map_of_mem MemPoolTx.Hash ht)
    rw [List.foldl_cons]
    cases hc : classifyTx qd pd probe tx with
    | STUCK =>
      have hstep : pruneStep now qd pd probe (s, evs, adds) tx = (s, evs, adds) := by
        simp only [pruneStep, hc]
      rw [hstep]
      obtain ⟨ih1, ih2, ih3⟩ := ih s evs adds hs
        (fun t ht => hpres t (List.mem_cons_of_mem tx ht)) hndr
      refine ⟨?_, ?_, ?_⟩
      · rw [ih1, List.filter_cons_of_neg (by simp [hc])]
      · intro t ht
        rcases List.mem_cons.mp ht with rfl | ht'
        · rw [ih3 t.Hash hrestne, hstx, hc]
          simp
        · exact ih2 t ht'
      · intro k hk
        exact ih3 k (fun t ht => hk t (List.mem_cons_of_mem tx ht))
    | UNSTUCK =>
      obtain ⟨-, hknd, -, -, -⟩ := id hs
      have hr21 : (txRemover s now tx.Hash).2.1 = some { tx with UnstuckAt := now } := by
        rw [txRemover_eq_of_some now hstx]
      have hstep : pruneStep now qd pd probe (s, evs, adds) tx =
          ((txRemover s now tx.Hash).1, evs ++ (txRemover s now tx.Hash).2.2,
            adds ++ [{ tx with UnstuckAt := now }]) := by
        simp only [pruneStep, hc, hr21]
      have hs'tr : (txRemover s now tx.Hash).1.Transactions =
          eraseKey s.Transactions tx.Hash := by
        rw [txRemover_eq_of_some now hstx]
      have hs' : poolInv (txRemover s now tx.Hash).1 :=
        txRemover_poolInv s now tx.Hash hs
      have hpres' : ∀ t ∈ rest,
          lookupTx (txRemover s now tx.Hash).1.Transactions t.Hash = some t := by
        intro t ht
        rw [hs'tr, lookupTx_eraseKey_ne (hrestne t ht)]
        exact hpres t (List.mem_cons_of_mem tx ht)
      rw [hstep]
      obtain ⟨ih1, ih2, ih3⟩ := ih (txRemover s now tx.Hash).1
        (evs ++ (txRemover s now tx.Hash).2.2)
        (adds ++ [{ tx with UnstuckAt := now }]) hs' hpres' hndr
      refine ⟨?_, ?_, ?_⟩
      · rw [ih1, List.filter_cons_of_pos (by simp [hc]), List.map_cons,
          List.append_assoc]
        simp
      · intro t ht
        rcases List.mem_cons.mp ht with rfl | ht'
        · rw [ih3 t.Hash hrestne, hs'tr, lookupTx_eraseKey_self hknd, hc]
          simp
        · exact ih2 t ht'
      · intro k hk
        rw [ih3 k (fun t ht => hk t (List.mem_cons_of_mem tx ht)), hs'tr,
          lookupTx_eraseKey_ne (fun e => (hk tx (List.mem_cons_self tx rest)) e.symm)]

/-- The ascending list carries pairwise distinct hashes. -/
theorem poolInv_asc_hash_nodup {q : QueuedPool} (hq : poolInv q) :
    (q.AscTxsByGasPrice.map MemPoolTx.Hash).Nodup := by
  obtain ⟨coh, knd, perm, -, -⟩ := hq
  have hvals : ((q.Transactions.map Prod.snd).map MemPoolTx.Hash).Nodup := by
    rw [map_hash_values coh]
    exact knd
  exact (perm.map MemPoolTx.Hash).nodup hvals

/-- The descending list carries pairwise distinct hashes. -/
theorem poolInv_desc_hash_nodup {q : QueuedPool} (hq : poolInv q) :
    (q.DescTxsByGasPrice.map MemPoolTx.Hash).Nodup := by
  obtain ⟨-, -, -, -, dsc⟩ := id hq
  rw [dsc, List.map_reverse]
  exact List.nodup_reverse.mpr (poolInv_asc_hash_nodup hq)

/-- Every record stored in the map is found under its own hash. -/
theorem poolInv_lookup_of_mem_values {q : QueuedPool} (hq : poolInv q)
    {t : MemPoolTx} (ht : t ∈ q.Transactions.map Prod.snd) :
    lookupTx q.Transactions t.Hash = some t := by
  obtain ⟨coh, knd, -, -, -⟩ := hq
  obtain ⟨p, hp, hpe⟩ := List.mem_map.mp ht
  have hph : p.1 = t.Hash := by
    rw [← coh p hp, hpe]
  have hmem : (t.Hash, t) ∈ q.Transactions := by
    rw [← hph, ← hpe]
    exact hp
  exact mem_lookupTx knd hmem

/-- Every record of the descending list is found under its own hash. -/
theorem poolInv_lookup_of_mem_desc {q : QueuedPool} (hq : poolInv q)
    {t : MemPoolTx} (ht : t ∈ q.DescTxsByGasPrice) :
    lookupTx q.Transactions t.Hash = some t := by
  obtain ⟨-, -, perm, -, dsc⟩ := id hq
  apply poolInv_lookup_of_mem_values hq
  apply perm.mem_iff.mpr
  rw [dsc] at ht
  exact List.mem_reverse.mp ht

/-- Records sharing a hash inside the pool are equal. -/
theorem poolInv_hash_inj {q : QueuedPool} (hq : poolInv q)
    {t u : MemPoolTx} (ht : t ∈ q.Transactions.map Prod.snd)
    (hu : u ∈ q.Transactions.map Prod.snd) (he : t.Hash = u.Hash) : t = u := by
  have h1 := poolInv_lookup_of_mem_values hq ht
  have h2 := poolInv_lookup_of_mem_values hq hu
  rw [he, h2] at h1
  exact (Option.some_inj.mp h1).symm

/-- Sample records used to exercise the claims on concrete inputs. -/
def sampleTx1 : MemPoolTx :=
  { Hash := 1, From := 100, To := 200, Nonce := 5, GasPrice := 10,
    QueuedAt := 0, PendingAt := 0, UnstuckAt := 0, Pool := "queued" }

/-- Second sample record: same sender and nonce as `sampleTx1`. -/
def sampleTx2 : MemPoolTx :=
  { Hash := 2, From := 100, To := 201, Nonce := 5, GasPrice := 30,
    QueuedAt := 0, PendingAt := 0, UnstuckAt := 0, Pool := "queued" }

/-- Third sample record: a different sender. -/
def sampleTx3 : MemPoolTx :=
  { Hash := 3, From := 101, To := 202, Nonce := 7, GasPrice := 20,
    QueuedAt := 0, PendingAt := 0, UnstuckAt := 0, Pool := "queued" }

/-- A fresh record not present in `samplePool`. -/
def sampleTx4 : MemPoolTx :=
  { Hash := 4, From := 102, To := 203, Nonce := 9, GasPrice := 15,
    QueuedAt := 0, PendingAt := 0, UnstuckAt := 0, Pool := "" }

/-- A concrete pool holding the three sample records, satisfying the
pool invariant. -/
def samplePool : QueuedPool :=
  { Transactions := [(1, sampleTx1), (3, sampleTx3), (2, sampleTx2)]
    AscTxsByGasPrice := [sampleTx1, sampleTx3, sampleTx2]
    DescTxsByGasPrice := [sampleTx2, sampleTx3, sampleTx1]
    IsPruning := false }

/-- The empty pool. -/
def emptyPool : QueuedPool :=
  { Transactions := [], AscTxsByGasPrice := [], DescTxsByGasPrice := [],
    IsPruning := false }

/-- Lookup finds a freshly consed entry. -/
theorem lookupTx_cons_self (m : List (Nat × MemPoolTx)) (h : Nat) (tx : MemPoolTx) :
    lookupTx ((h, tx) :: m) h = some tx := by
  simp [lookupTx]

/-- Claim C1: in every state observable to a query the map, the
ascending list and the descending list contain exactly the same records
with identical cardinality, the ascending list is sorted non-decreasing
by `GasPrice`, the descending list is its exact reverse, and every pool
operation (`Add`, `Remove`, the prune guard, the prune body; queries do
not mutate) preserves this invariant. -/
theorem claim_C1_invariants (q : QueuedPool) (now h : Nat) (tx : MemPoolTx)
    (qd pd : Nat → Bool) (probe : Nat → Option Bool) (hq : poolInv q) :
    (q.Transactions.length = q.AscTxsByGasPrice.length ∧
     q.DescTxsByGasPrice.length = q.AscTxsByGasPrice.length ∧
     (∀ t : MemPoolTx, t ∈ q.AscTxsByGasPrice ↔ t ∈ q.Transactions.map Prod.snd) ∧
     (∀ t : MemPoolTx, t ∈ q.DescTxsByGasPrice ↔ t ∈ q.AscTxsByGasPrice) ∧
     sortedByGasPrice q.AscTxsByGasPrice ∧
     q.DescTxsByGasPrice = q.AscTxsByGasPrice.reverse) ∧
    poolInv (addTx q now tx).1 ∧
    poolInv (txRemover q now h).1 ∧
    poolInv (removeUnstuckGuard q).1 ∧
    poolInv (pruneBody q now qd pd probe).1 := by
  obtain ⟨coh, knd, perm, srt, dsc⟩ := id hq
  refine ⟨⟨?_, ?_, ?_, ?_, srt, dsc⟩, addTx_poolInv q now tx hq,
    txRemover_poolInv q now h hq, removeUnstuckGuard_poolInv q hq,
    pruneBody_poolInv q now qd pd probe hq⟩
  · rw [← perm.length_eq, List.length_map]
  · rw [dsc, List.length_reverse]
  · intro t
    exact perm.mem_iff.symm
  · intro t
    rw [dsc, List.mem_reverse]

/-- Witness for claim C1 at a concrete three-record pool. -/
theorem claim_C1_invariants_witness :
    poolInv samplePool ∧ poolInv (addTx samplePool 9 sampleTx4).1 :=
  ⟨by decide,
   (claim_C1_invariants samplePool 9 1 sampleTx4 (fun _ => false)
      (fun _ => false) (fun _ => none) (by decide)).2.1⟩

/-- The unfolded equation of `addTx` on a fresh hash. -/
theorem addTx_eq_of_none {q : QueuedPool} {tx : MemPoolTx} (now : Nat)
    (hl : lookupTx q.Transactions tx.Hash = none) :
    addTx q now tx =
      ({ q with
          Transactions :=
            (tx.Hash, { tx with QueuedAt := now, Pool := "queued" }) ::
              q.Transactions
          AscTxsByGasPrice :=
            insertAsc q.AscTxsByGasPrice { tx with QueuedAt := now, Pool := "queued" }
          DescTxsByGasPrice :=
            insertDesc q.DescTxsByGasPrice { tx with QueuedAt := now, Pool := "queued" } },
       true, [QEvent.added { tx with QueuedAt := now, Pool := "queued" }]) := by
  simp only [addTx, hl]

/-- The unfolded equation of `addTx` on a duplicate hash. -/
theorem addTx_eq_of_some {q : QueuedPool} {tx t0 : MemPoolTx} (now : Nat)
    (hl : lookupTx q.Transactions tx.Hash = some t0) :
    addTx q now tx = (q, false, []) := by
  simp only [addTx, hl]

/-- Claim C2: `Add(tx)` replies true iff `tx.Hash` was absent; on true
the stamped record is inserted (so `Exists` holds afterwards, with
`QueuedAt = now` and `Pool = "queued"`) and exactly one entry event is
published; on false nothing changes and nothing is published, so
`Add(tx); Add(tx)` publishes exactly one entry event. -/
theorem claim_C2_add (q : QueuedPool) (now now2 : Nat) (tx : MemPoolTx) :
    ((addTx q now tx).2.1 = true ↔ lookupTx q.Transactions tx.Hash = none) ∧
    (lookupTx q.Transactions tx.Hash = none →
      getTx (addTx q now tx).1 tx.Hash =
        some { tx with QueuedAt := now, Pool := "queued" } ∧
      existsTx (addTx q now tx).1 tx.Hash = true ∧
      (addTx q now tx).2.2 =
        [QEvent.added { tx with QueuedAt := now, Pool := "queued" }]) ∧
    (lookupTx q.Transactions tx.Hash ≠ none → addTx q now tx = (q, false, [])) ∧
    (lookupTx q.Transactions tx.Hash = none →
      (addTx (addTx q now tx).1 now2 tx).2.1 = false ∧
      (addTx q now tx).2.2.length +
        (addTx (addTx q now tx).1 now2 tx).2.2.length = 1) := by
  by_cases hl : lookupTx q.Transactions tx.Hash = none
  · have hadd := addTx_eq_of_none now hl
    have hl2 : lookupTx (addTx q now tx).1.Transactions tx.Hash =
        some { tx with QueuedAt := now, Pool := "queued" } := by
      rw [hadd]
      exact lookupTx_cons_self q.Transactions tx.Hash _
    have hadd2 := addTx_eq_of_some now2 hl2
    refine ⟨?_, ?_, ?_, ?_⟩
    · rw [hadd]
      simp [hl]
    · intro _
      refine ⟨hl2, ?_, ?_⟩
      · simp [existsTx, hl2]
      · rw [hadd]
    · intro e
      exact absurd hl e
    · intro _
      refine ⟨?_, ?_⟩
      · rw [hadd2]
      · rw [hadd2, hadd]
        simp
  · obtain ⟨t0, hl0⟩ := Option.ne_none_iff_exists'.mp hl
    have hadd := addTx_eq_of_some now hl0
    refine ⟨?_, ?_, ?_, ?_⟩
    · rw [hadd]
      simp [hl0]
    · intro e
      exact absurd e hl
    · intro _
      exact hadd
    · intro e
      exact absurd e hl

/-- Claim C3: `Remove(h)` replies null on an absent hash and leaves the
state untouched; on a present hash it replies the stored record with
`UnstuckAt` stamped, and excises it from the map and from both sorted
lists, so `Exists(h)` is false afterwards. -/
theorem claim_C3_remove (q : QueuedPool) (now h : Nat) (hq : poolInv q) :
    (lookupTx q.Transactions h = none → txRemover q now h = (q, none, [])) ∧
    (∀ tx, lookupTx q.Transactions h = some tx →
      (txRemover q now h).2.1 = some { tx with UnstuckAt := now } ∧
      existsTx (txRemover q now h).1 h = false ∧
      (∀ t ∈ (txRemover q now h).1.AscTxsByGasPrice, t.Hash ≠ h) ∧
      (∀ t ∈ (txRemover q now h).1.DescTxsByGasPrice, t.Hash ≠ h)) := by
  obtain ⟨coh, knd, perm, srt, dsc⟩ := id hq
  constructor
  · intro hl
    simp only [txRemover, hl]
  · intro tx hl
    rw [txRemover_eq_of_some now hl]
    refine ⟨rfl, ?_, ?_, ?_⟩
    · simp [existsTx, lookupTx_eraseKey_self knd]
    · exact mem_removeByHash_ne (poolInv_asc_hash_nodup hq)
    · exact mem_removeByHash_ne (poolInv_desc_hash_nodup hq)

/-- Witness for claim C3: removing hash 1 from the sample pool. -/
theorem claim_C3_remove_witness :
    poolInv samplePool ∧
    lookupTx samplePool.Transactions 1 = some sampleTx1 ∧
    (txRemover samplePool 7 1).2.1 = some { sampleTx1 with UnstuckAt := 7 } ∧
    existsTx (txRemover samplePool 7 1).1 1 = false := by
  have hp : poolInv samplePool := by decide
  have hl : lookupTx samplePool.Transactions 1 = some sampleTx1 := by decide
  obtain ⟨h1, h2, -⟩ := (claim_C3_remove samplePool 7 1 hp).2 sampleTx1 hl
  exact ⟨hp, hl, h1, h2⟩

/-- Witness for claim C2: adding a fresh record to the sample pool,
then adding it again. -/
theorem claim_C2_add_witness :
    lookupTx samplePool.Transactions sampleTx4.Hash = none ∧
    (addTx samplePool 9 sampleTx4).2.1 = true ∧
    (addTx (addTx samplePool 9 sampleTx4).1 10 sampleTx4).2.1 = false := by
  have hl : lookupTx samplePool.Transactions sampleTx4.Hash = none := by decide
  have h := claim_C2_add samplePool 9 10 sampleTx4
  exact ⟨hl, h.1.mpr hl, (h.2.2.2 hl).1⟩

/-- Claim C4 (code bug in the source): a successful `Remove` replies the
removed record, but the exit event is published with the map lookup
performed after the deletion, i.e. a null payload instead of the
just-removed record — evaluated at a concrete single-record removal. -/
theorem claim_C4_publish_bug :
    (txRemover samplePool 7 1).2.1 = some { sampleTx1 with UnstuckAt := 7 } ∧
    (txRemover samplePool 7 1).2.2 = [QEvent.removed none] ∧
    (txRemover samplePool 7 1).2.2 ≠
      [QEvent.removed (some { sampleTx1 with UnstuckAt := 7 })] := by
  decide

/-- Claim C5: a prune request replies `PRUNING` when a prune is in
flight and `EMPTY` on an empty pool, each leaving the state untouched;
otherwise it sets the latch and replies `SCHEDULED`, so two back-to-back
prune requests on a non-empty pool reply `SCHEDULED` then `PRUNING`. -/
theorem claim_C5_prune_guard (q : QueuedPool) :
    (q.IsPruning = true → removeUnstuckGuard q = (q, PruneStatus.PRUNING)) ∧
    (q.IsPruning = false → q.DescTxsByGasPrice = [] →
      removeUnstuckGuard q = (q, PruneStatus.EMPTY)) ∧
    (q.IsPruning = false → q.DescTxsByGasPrice ≠ [] →
      removeUnstuckGuard q =
        ({ q with IsPruning := true }, PruneStatus.SCHEDULED) ∧
      (removeUnstuckGuard (removeUnstuckGuard q).1).2 = PruneStatus.PRUNING) := by
  refine ⟨?_, ?_, ?_⟩
  · intro h1
    simp [removeUnstuckGuard, h1]
  · intro h1 h2
    simp [removeUnstuckGuard, h1, h2]
  · intro h1 h2
    have hlen : ¬ q.DescTxsByGasPrice.length = 0 := by
      simpa [List.length_eq_zero] using h2
    have hg : removeUnstuckGuard q =
        ({ q with IsPruning := true }, PruneStatus.SCHEDULED) := by
      simp [removeUnstuckGuard, h1, hlen]
    refine ⟨hg, ?_⟩
    rw [hg]
    simp [removeUnstuckGuard]

/-- Witness for claim C5: back-to-back prune requests on the sample pool. -/
theorem claim_C5_prune_guard_witness :
    samplePool.IsPruning = false ∧ samplePool.DescTxsByGasPrice ≠ [] ∧
    (removeUnstuckGuard samplePool).2 = PruneStatus.SCHEDULED ∧
    (removeUnstuckGuard (removeUnstuckGuard samplePool).1).2 =
      PruneStatus.PRUNING := by
  have h1 : samplePool.IsPruning = false := by decide
  have h2 : samplePool.DescTxsByGasPrice ≠ [] := by decide
  obtain ⟨hg, hp⟩ := (claim_C5_prune_guard samplePool).2.2 h1 h2
  exact ⟨h1, h2, by rw [hg], hp⟩

/-- Claim C6: during a prune every snapshotted transaction is STUCK when
its hash is in the upstream queued map, else UNSTUCK when in the
upstream pending map, else STUCK on an RPC error and otherwise UNSTUCK
iff the probe returned true; exactly the UNSTUCK-classified
transactions are removed through the single-remove protocol, and the
removed records are the ones handed to `PendingPool.Add`. -/
theorem claim_C6_prune (q : QueuedPool) (now : Nat)
    (qd pd : Nat → Bool) (probe : Nat → Option Bool) (hq : poolInv q) :
    (∀ tx : MemPoolTx, qd tx.Hash = true →
      classifyTx qd pd probe tx = TxStatus.STUCK) ∧
    (∀ tx : MemPoolTx, qd tx.Hash = false → pd tx.Hash = true →
      classifyTx qd pd probe tx = TxStatus.UNSTUCK) ∧
    (∀ tx : MemPoolTx, qd tx.Hash = false → pd tx.Hash = false →
      probe tx.Hash = none → classifyTx qd pd probe tx = TxStatus.STUCK) ∧
    (∀ (tx : MemPoolTx) (b : Bool), qd tx.Hash = false → pd tx.Hash = false →
      probe tx.Hash = some b →
      (classifyTx qd pd probe tx = TxStatus.UNSTUCK ↔ b = true)) ∧
    ((pruneBody q now qd pd probe).2.2 =
      (q.DescTxsByGasPrice.filter
        (fun t => classifyTx qd pd probe t == TxStatus.UNSTUCK)).map
        (fun t => { t with UnstuckAt := now })) ∧
    (∀ t ∈ q.DescTxsByGasPrice,
      existsTx (pruneBody q now qd pd probe).1 t.Hash =
        (classifyTx qd pd probe t == TxStatus.STUCK)) := by
  have hpres : ∀ t ∈ q.DescTxsByGasPrice,
      lookupTx q.Transactions t.Hash = some t :=
    fun t ht => poolInv_lookup_of_mem_desc hq ht
  have hnd := poolInv_desc_hash_nodup hq
  obtain ⟨h1, h2, -⟩ :=
    pruneFold_spec now qd pd probe q.DescTxsByGasPrice q [] [] hq hpres hnd
  refine ⟨?_, ?_, ?_, ?_, ?_, ?_⟩
  · intro tx h
    simp [classifyTx, h]
  · intro tx h h'
    simp [classifyTx, h, h']
  · intro tx h h' h''
    simp [classifyTx, h, h', h'']
  · intro tx b h h' h''
    cases b
    · simp [classifyTx, h, h', h'']
    · simp [classifyTx, h, h', h'']
  · simpa [pruneBody] using h1
  · intro t ht
    have h2t := h2 t ht
    simp only [existsTx, pruneBody]
    rw [h2t]
    cases hc : classifyTx qd pd probe t
    · simp [hc]
    · simp [hc]

/-- Upstream queued snapshot used by the C6 witness: hash 1 only. -/
def upstreamQueuedW (h : Nat) : Bool := h == 1

/-- Upstream pending snapshot used by the C6 witness: hash 2 only. -/
def upstreamPendingW (h : Nat) : Bool := h == 2

/-- RPC probe used by the C6 witness: no error, unstuck iff hash 3. -/
def probeW (h : Nat) : Option Bool := some (h == 3)

/-- Witness for claim C6: pruning the sample pool removes exactly the
pending-listed record and the probe-unstuck record, in snapshot order. -/
theorem claim_C6_prune_witness :
    poolInv samplePool ∧
    (pruneBody samplePool 9 upstreamQueuedW upstreamPendingW probeW).2.2 =
      [{ sampleTx2 with UnstuckAt := 9 }, { sampleTx3 with UnstuckAt := 9 }] := by
  have hp : poolInv samplePool := by decide
  have h :=
    (claim_C6_prune samplePool 9 upstreamQueuedW upstreamPendingW probeW hp).2.2.2.2.1
  refine ⟨hp, ?_⟩
  rw [h]
  decide

/-- Claim C7: for a hash present in the pool, `DuplicateTxs` returns
exactly the pool records sharing the target's `From` and `Nonce`,
excluding the target itself. -/
theorem claim_C7_duplicates (q : QueuedPool) (h : Nat) (targetTx : MemPoolTx)
    (hq : poolInv q) (hget : lookupTx q.Transactions h = some targetTx) :
    DuplicateTxs q h =
      some (q.DescTxsByGasPrice.filter (fun t => IsDuplicateOf t targetTx)) ∧
    (∀ t ∈ q.Transactions.map Prod.snd,
      (IsDuplicateOf t targetTx = true ↔
        (t.From = targetTx.From ∧ t.Nonce = targetTx.Nonce ∧ t ≠ targetTx))) ∧
    (∀ t : MemPoolTx,
      t ∈ q.DescTxsByGasPrice.filter (fun t2 => IsDuplicateOf t2 targetTx) ↔
        (t ∈ q.Transactions.map Prod.snd ∧ t.From = targetTx.From ∧
         t.Nonce = targetTx.Nonce ∧ t ≠ targetTx)) := by
  obtain ⟨coh, knd, perm, srt, dsc⟩ := id hq
  have htmem : targetTx ∈ q.Transactions.map Prod.snd :=
    List.mem_map_of_mem Prod.snd (lookupTx_mem hget)
  have hascne : q.AscTxsByGasPrice ≠ [] := by
    intro e
    have hm : targetTx ∈ q.AscTxsByGasPrice := perm.mem_iff.mp htmem
    rw [e] at hm
    simp at hm
  have hdne : ¬ q.DescTxsByGasPrice.length = 0 := by
    rw [dsc, List.length_reverse, List.length_eq_zero]
    exact hascne
  have hdesclist : DescListTxs q = some q.DescTxsByGasPrice := by
    simp only [DescListTxs, if_neg hdne, listCopy_eq]
  have hdupiff : ∀ t ∈ q.Transactions.map Prod.snd,
      (IsDuplicateOf t targetTx = true ↔
        (t.From = targetTx.From ∧ t.Nonce = targetTx.Nonce ∧ t ≠ targetTx)) := by
    intro t ht
    have hhash_iff : t.Hash ≠ targetTx.Hash ↔ t ≠ targetTx := by
      constructor
      · intro hne he
        exact hne (by rw [he])
      · intro hne he
        exact hne (poolInv_hash_inj hq ht htmem he)
    simp only [IsDuplicateOf, Bool.and_eq_true, beq_iff_eq, bne_iff_ne, ne_eq]
    constructor
    · rintro ⟨⟨e1, e2⟩, e3⟩
      exact ⟨e1, e2, hhash_iff.mp e3⟩
    · rintro ⟨e1, e2, e3⟩
      exact ⟨⟨e1, e2⟩, hhash_iff.mpr e3⟩
  have hdescmem : ∀ t : MemPoolTx,
      t ∈ q.DescTxsByGasPrice ↔ t ∈ q.Transactions.map Prod.snd := by
    intro t
    rw [dsc, List.mem_reverse]
    exact perm.mem_iff.symm
  refine ⟨?_, hdupiff, ?_⟩
  · simp only [DuplicateTxs, getTx, hget, hdesclist]
  · intro t
    rw [List.mem_filter]
    constructor
    · rintro ⟨hmem, hdupt⟩
      have ht := (hdescmem t).mp hmem
      exact ⟨ht, (hdupiff t ht).mp hdupt⟩
    · rintro ⟨ht, e1, e2, e3⟩
      exact ⟨(hdescmem t).mpr ht, (hdupiff t ht).mpr ⟨e1, e2, e3⟩⟩

/-- Witness for claim C7: the two same-sender/same-nonce sample records
report each other as their only duplicate. -/
theorem claim_C7_duplicates_witness :
    poolInv samplePool ∧
    lookupTx samplePool.Transactions 1 = some sampleTx1 ∧
    DuplicateTxs samplePool 1 = some [sampleTx2] ∧
    DuplicateTxs samplePool 2 = some [sampleTx1] := by
  have hp : poolInv samplePool := by decide
  have hl1 : lookupTx samplePool.Transactions 1 = some sampleTx1 := by decide
  have hl2 : lookupTx samplePool.Transactions 2 = some sampleTx2 := by decide
  have h1 := (claim_C7_duplicates samplePool 1 sampleTx1 hp hl1).1
  have h2 := (claim_C7_duplicates samplePool 2 sampleTx2 hp hl2).1
  refine ⟨hp, hl1, ?_, ?_⟩
  · rw [h1]
    decide
  · rw [h2]
    decide

/-- Claim C8: for `x ≤ Count()`, the top-X queries return the first `x`
elements of the descending resp. ascending list with no out-of-bounds
failure; for `x > Count()` the unchecked Go slice panics, modelled as a
null result. -/
theorem claim_C8_topx (q : QueuedPool) (x : Nat) (hq : poolInv q) :
    (x ≤ countTxs q →
      TopXWithHighGasPrice q x = some (q.DescTxsByGasPrice.take x) ∧
      TopXWithLowGasPrice q x = some (q.AscTxsByGasPrice.take x)) ∧
    (countTxs q < x →
      TopXWithHighGasPrice q x = none ∧ TopXWithLowGasPrice q x = none) := by
  obtain ⟨-, -, -, -, dsc⟩ := id hq
  have hdlen : q.DescTxsByGasPrice.length = q.AscTxsByGasPrice.length := by
    rw [dsc, List.length_reverse]
  by_cases hz : q.AscTxsByGasPrice.length = 0
  · have ha : q.AscTxsByGasPrice = [] := List.length_eq_zero.mp hz
    have hd : q.DescTxsByGasPrice = [] := by
      rw [dsc, ha]
      rfl
    have hdz : q.DescTxsByGasPrice.length = 0 := by
      rw [hdlen]
      exact hz
    have hal : AscListTxs q = none := by
      simp only [AscListTxs, if_pos hz]
    have hdl : DescListTxs q = none := by
      simp only [DescListTxs, if_pos hdz]
    constructor
    · intro hx
      have hx0 : x = 0 := Nat.le_zero.mp (by rwa [countTxs, hz] at hx)
      subst hx0
      constructor
      · simp [TopXWithHighGasPrice, hdl, goSlice, hd]
      · simp [TopXWithLowGasPrice, hal, goSlice, ha]
    · intro hx
      have hx0 : 0 < x := by rwa [countTxs, hz] at hx
      constructor
      · simp [TopXWithHighGasPrice, hdl, goSlice, Nat.not_le.mpr hx0]
      · simp [TopXWithLowGasPrice, hal, goSlice, Nat.not_le.mpr hx0]
  · have hdz : ¬ q.DescTxsByGasPrice.length = 0 := by
      rw [hdlen]
      exact hz
    have hal : AscListTxs q = some q.AscTxsByGasPrice := by
      simp only [AscListTxs, if_neg hz, listCopy_eq]
    have hdl : DescListTxs q = some q.DescTxsByGasPrice := by
      simp only [DescListTxs, if_neg hdz, listCopy_eq]
    constructor
    · intro hx
      rw [countTxs] at hx
      constructor
      · simp only [TopXWithHighGasPrice, hdl, Option.getD_some, goSlice, hdlen]
        rw [if_pos hx]
      · simp only [TopXWithLowGasPrice, hal, Option.getD_some, goSlice]
        rw [if_pos hx]
    · intro hx
      rw [countTxs] at hx
      constructor
      · simp only [TopXWithHighGasPrice, hdl, Option.getD_some, goSlice, hdlen]
        rw [if_neg (Nat.not_le.mpr hx)]
      · simp only [TopXWithLowGasPrice, hal, Option.getD_some, goSlice]
        rw [if_neg (Nat.not_le.mpr hx)]

/-- Witness for claim C8: top-2 of the sample pool in both orders, and
the out-of-range request. -/
theorem claim_C8_topx_witness :
    poolInv samplePool ∧ 2 ≤ countTxs samplePool ∧
    TopXWithHighGasPrice samplePool 2 = some [sampleTx2, sampleTx3] ∧
    TopXWithLowGasPrice samplePool 2 = some [sampleTx1, sampleTx3] ∧
    TopXWithHighGasPrice samplePool 4 = none := by
  have hp : poolInv samplePool := by decide
  have hle : 2 ≤ countTxs samplePool := by decide
  have hlt : countTxs samplePool < 4 := by decide
  obtain ⟨hH, hL⟩ := (claim_C8_topx samplePool 2 hp).1 hle
  refine ⟨hp, hle, ?_, ?_, ?_⟩
  · rw [hH]
    decide
  · rw [hL]
    decide
  · exact ((claim_C8_topx samplePool 4 hp).2 hlt).1

/-- The ASC list handler replies null exactly on the empty list. -/
theorem AscListTxs_eq_none_iff (q : QueuedPool) :
    AscListTxs q = none ↔ q.AscTxsByGasPrice = [] := by
  by_cases hz : q.AscTxsByGasPrice.length = 0
  · simp only [AscListTxs, if_pos hz]
    simp [List.length_eq_zero.mp hz]
  · simp only [AscListTxs, if_neg hz]
    simp only [List.length_eq_zero] at hz
    simp [hz]

/-- The DESC list handler replies null exactly on the empty list. -/
theorem DescListTxs_eq_none_iff (q : QueuedPool) :
    DescListTxs q = none ↔ q.DescTxsByGasPrice = [] := by
  by_cases hz : q.DescTxsByGasPrice.length = 0
  · simp only [DescListTxs, if_pos hz]
    simp [List.length_eq_zero.mp hz]
  · simp only [DescListTxs, if_neg hz]
    simp only [List.length_eq_zero] at hz
    simp [hz]

/-- Claim C9: the list queries reply null exactly on the empty pool and
otherwise a freshly built copy equal to the sorted contents; the
returned value is a copy, so later pool operations cannot affect it. -/
theorem claim_C9_list_copies (q : QueuedPool) (hq : poolInv q) :
    (AscListTxs q = none ↔ q.AscTxsByGasPrice = []) ∧
    (DescListTxs q = none ↔ q.AscTxsByGasPrice = []) ∧
    (q.AscTxsByGasPrice ≠ [] →
      AscListTxs q = some q.AscTxsByGasPrice ∧
      DescListTxs q = some q.AscTxsByGasPrice.reverse) := by
  obtain ⟨-, -, -, -, dsc⟩ := id hq
  refine ⟨AscListTxs_eq_none_iff q, ?_, ?_⟩
  · rw [DescListTxs_eq_none_iff q, dsc, List.reverse_eq_nil_iff]
  · intro hne
    have hz : ¬ q.AscTxsByGasPrice.length = 0 := by
      simpa [List.length_eq_zero] using hne
    have hdz : ¬ q.DescTxsByGasPrice.length = 0 := by
      rw [dsc, List.length_reverse]
      exact hz
    constructor
    · simp only [AscListTxs, if_neg hz, listCopy_eq]
    · have hdlist : DescListTxs q = some q.DescTxsByGasPrice := by
        simp only [DescListTxs, if_neg hdz, listCopy_eq]
      rw [hdlist, dsc]

/-- Witness for claim C9: both list orders on the sample pool, and the
null reply on the empty pool. -/
theorem claim_C9_list_copies_witness :
    poolInv samplePool ∧
    AscListTxs samplePool = some [sampleTx1, sampleTx3, sampleTx2] ∧
    DescListTxs samplePool = some [sampleTx2, sampleTx3, sampleTx1] ∧
    AscListTxs emptyPool = none := by
  have hp : poolInv samplePool := by decide
  have hne : samplePool.AscTxsByGasPrice ≠ [] := by decide
  obtain ⟨h1, h2⟩ := (claim_C9_list_copies samplePool hp).2.2 hne
  refine ⟨hp, ?_, ?_, ?_⟩
  · rw [h1]
    decide
  · rw [h2]
    decide
  · exact (claim_C9_list_copies emptyPool (by decide)).1.mpr rfl

/-- Claim C10: on the empty pool every filtered query replies null
(because the underlying descending list request replies null), and
`DuplicateTxs` replies null whenever the hash is absent. -/
theorem claim_C10_null_queries (q : QueuedPool) (address d now : Nat)
    (hq : q.DescTxsByGasPrice = []) :
    SentFrom q address = none ∧ SentTo q address = none ∧
    OlderThanX q now d = none ∧ FresherThanX q now d = none ∧
    (∀ (q2 : QueuedPool) (h2 : Nat), lookupTx q2.Transactions h2 = none →
      DuplicateTxs q2 h2 = none) := by
  have hdl : DescListTxs q = none := by
    simp [DescListTxs, hq]
  refine ⟨?_, ?_, ?_, ?_, ?_⟩
  · simp only [SentFrom, hdl]
  · simp only [SentTo, hdl]
  · simp only [OlderThanX, hdl]
  · simp only [FresherThanX, hdl]
  · intro q2 h2 hl
    simp only [DuplicateTxs, getTx, hl]

/-- Witness for claim C10: the empty pool's filtered queries and an
absent-hash duplicate query on the sample pool. -/
theorem claim_C10_null_queries_witness :
    emptyPool.DescTxsByGasPrice = [] ∧
    SentFrom emptyPool 100 = none ∧ OlderThanX emptyPool 5 1 = none ∧
    DuplicateTxs samplePool 99 = none := by
  have h := claim_C10_null_queries emptyPool 100 1 5 rfl
  exact ⟨rfl, h.1, h.2.2.1, h.2.2.2.2 samplePool 99 (by decide)⟩
